import Mathlib

/-!
Verification of the `ph-eventing` SPSC overwrite ring (`src/seq_ring.rs`).

The Rust code is embedded shallowly as a pure state machine:
- `u32` fields are `Nat` values kept below `U32MOD = 2^32`; the wrapping
  operations `wrapping_add` / `wrapping_sub` become `wadd32` / `wsub32`
  with explicit `% U32MOD`.
- The atomics collapse to plain state in this sequential model (the claims
  under verification are all about non-interleaved executions).
- `MaybeUninit<T>` slots become `Option α` (`none` = never written).
- Hook invocations are modelled by returning the list of `(seq, value)`
  pairs delivered to the hook, in order.
- The `while` loop of `poll_up_to` becomes the fuel-indexed `pollLoop`;
  `poll_up_to` runs it with fuel `U32MOD`, which is shown sufficient in the
  sequential setting (the lag strictly decreases every iteration).
- A panicking `assert!` (handle exclusivity) is modelled by a returned
  `Bool` (`false` = the assertion fired), and `Drop` impls by explicit
  release functions.
-/

/-- 2^32, the modulus of Rust `u32` arithmetic. -/
def U32MOD : Nat := 4294967296

/-- `u32::wrapping_add` on `Nat` representatives. -/
def wadd32 (a b : Nat) : Nat := (a + b) % U32MOD

/-- `u32::wrapping_sub` on `Nat` representatives. -/
def wsub32 (a b : Nat) : Nat := (a + (U32MOD - b % U32MOD)) % U32MOD

/-- Result record of `Consumer::poll_up_to` (struct `PollStats`). -/
structure PollStats where
  read : Nat
  dropped : Nat
  newest : Nat
deriving DecidableEq, Repr

/-- State of `SeqRing<T, N>`: capacity `N`, the two shared counters, the
per-slot sequence tags, the value slots, and the handle-exclusivity flags. -/
structure SeqRing (α : Type) where
  N : Nat
  next_seq : Nat
  published_seq : Nat
  slot_seq : List Nat
  slots : List (Option α)
  producer_taken : Bool
  consumer_taken : Bool
deriving DecidableEq

/-- `SeqRing::new()`: all counters and tags zero, all slots uninitialized,
no handle taken. (The Rust `assert!(N > 0)` is a hypothesis of the theorems
that need it.) -/
def SeqRing.new (α : Type) (N : Nat) : SeqRing α :=
  { N := N
    next_seq := 0
    published_seq := 0
    slot_seq := List.replicate N 0
    slots := List.replicate N none
    producer_taken := false
    consumer_taken := false }

/-- `SeqRing::idx_for`: `((seq.wrapping_sub(1)) as usize) % N`. -/
def SeqRing.idx_for (N seq : Nat) : Nat := wsub32 seq 1 % N

/-- `SeqRing::push_inner`: assign the next sequence number (skipping the
reserved `0` on wraparound and fixing up the shared counter), write the
value, publish the slot tag, publish the newest sequence. Returns the
updated ring and the assigned sequence number. -/
def SeqRing.push_inner (r : SeqRing α) (v : α) : SeqRing α × Nat :=
  let cand := wadd32 r.next_seq 1
  let seq := if cand = 0 then 1 else cand
  let idx := SeqRing.idx_for r.N seq
  ({ r with
      next_seq := seq
      slot_seq := r.slot_seq.set idx seq
      slots := r.slots.set idx (some v)
      published_seq := seq }, seq)

/-- `SeqRing::newest_seq`: acquire-load of `published_seq`. -/
def SeqRing.newest_seq (r : SeqRing α) : Nat := r.published_seq

/-- `SeqRing::read_seq_inner`: double-checked slot read. The tag is
checked before and after copying the value; in this sequential model the
two loads coincide, but both checks are kept to mirror the source. -/
def SeqRing.read_seq_inner (r : SeqRing α) (seq : Nat) : Option α :=
  let idx := SeqRing.idx_for r.N seq
  let s1 := r.slot_seq.getD idx 0
  if s1 ≠ seq then none
  else
    let v := r.slots.getD idx none
    let s2 := r.slot_seq.getD idx 0
    if s2 ≠ seq then none else v

/-- `SeqRing::producer()`: test-and-set of `producer_taken`. The returned
`Bool` is `true` iff acquisition succeeds (`false` models the panic); the
returned ring is the post-state of the atomic `swap(true)`. -/
def SeqRing.producer (r : SeqRing α) : Bool × SeqRing α :=
  (!r.producer_taken, { r with producer_taken := true })

/-- State of a `Consumer` handle: the in-order cursor and the accumulated
drop counter. -/
structure Consumer where
  last_seq : Nat
  dropped_accum : Nat
deriving DecidableEq, Repr

/-- `SeqRing::consumer()`: test-and-set of `consumer_taken`; on success a
fresh consumer handle with `last_seq = 0`, `dropped_accum = 0`. -/
def SeqRing.consumer (r : SeqRing α) : Bool × SeqRing α × Consumer :=
  (!r.consumer_taken, { r with consumer_taken := true }, ⟨0, 0⟩)

/-- `Drop for Producer`: clear the `producer_taken` flag. -/
def SeqRing.release_producer (r : SeqRing α) : SeqRing α :=
  { r with producer_taken := false }

/-- `Drop for Consumer` (handle side): clear the `consumer_taken` flag. -/
def SeqRing.release_consumer (r : SeqRing α) : SeqRing α :=
  { r with consumer_taken := false }

/-- `Consumer::dropped`. -/
def Consumer.dropped (c : Consumer) : Nat := c.dropped_accum

/-- `Consumer::reset_dropped`. -/
def Consumer.reset_dropped (c : Consumer) : Consumer :=
  { c with dropped_accum := 0 }

/-- The `while read < max` loop of `Consumer::poll_up_to`, indexed by fuel.
Returns `(last_seq, read, dropped, delivered)`. The ring is fixed during
the loop (sequential model), so the per-iteration re-read of
`newest_seq()` always yields `r.published_seq`. -/
def pollLoop (r : SeqRing α) (max : Nat) :
    Nat → Nat → Nat → Nat → List (Nat × α) → Nat × Nat × Nat × List (Nat × α)
  | 0, last, read, dropped, acc => (last, read, dropped, acc)
  | fuel + 1, last, read, dropped, acc =>
    if read < max then
      let newest := r.newest_seq
      if last = newest then (last, read, dropped, acc)
      else
        let lag := wsub32 newest last
        if r.N < lag then
          let next := wadd32 last 1
          let keep_from := wsub32 newest (r.N - 1)
          let jump_drops := wsub32 keep_from next
          pollLoop r max fuel (wsub32 keep_from 1) read (dropped + jump_drops) acc
        else
          let next := wadd32 last 1
          match r.read_seq_inner next with
          | some v => pollLoop r max fuel next (read + 1) dropped (acc ++ [(next, v)])
          | none => pollLoop r max fuel next read (dropped + 1) acc
    else (last, read, dropped, acc)

/-- `Consumer::poll_up_to`: the two early returns, then the drain loop;
`dropped_accum` is increased by the drops of this call. Returns the updated
consumer, the `PollStats`, and the delivered `(seq, value)` pairs. -/
def Consumer.poll_up_to (r : SeqRing α) (c : Consumer) (max : Nat) :
    Consumer × PollStats × List (Nat × α) :=
  if max = 0 then (c, ⟨0, 0, r.newest_seq⟩, [])
  else if r.newest_seq = 0 ∨ r.newest_seq = c.last_seq then
    (c, ⟨0, 0, r.newest_seq⟩, [])
  else
    let res := pollLoop r max U32MOD c.last_seq 0 0 []
    ({ last_seq := res.1, dropped_accum := c.dropped_accum + res.2.2.1 },
      ⟨res.2.1, res.2.2.1, r.newest_seq⟩, res.2.2.2)

/-- `Consumer::poll_one`: `poll_up_to(1, …)`, reporting whether one item
was delivered. -/
def Consumer.poll_one (r : SeqRing α) (c : Consumer) :
    Consumer × Bool × List (Nat × α) :=
  let res := Consumer.poll_up_to r c 1
  (res.1, res.2.1.read == 1, res.2.2)

/-- `Consumer::latest`: read the currently newest item without moving the
cursor. The consumer (taken by shared reference in Rust) is passed through
unchanged; `some (seq, v)` models a `true` return with one hook call. -/
def Consumer.latest (r : SeqRing α) (c : Consumer) :
    Consumer × Option (Nat × α) :=
  let newest := r.newest_seq
  if newest = 0 then (c, none)
  else
    match r.read_seq_inner newest with
    | some v => (c, some (newest, v))
    | none => (c, none)

/-- `Consumer::skip_to_latest`: fast-forward the cursor to `newest - 1`
so the next in-order poll yields the newest item; no-op on an empty ring. -/
def Consumer.skip_to_latest (r : SeqRing α) (c : Consumer) : Consumer :=
  let newest := r.newest_seq
  if newest ≠ 0 then { c with last_seq := wsub32 newest 1 } else c

/-- Push a list of values in order (repeated `Producer::push`). -/
def pushAll (r : SeqRing α) (vs : List α) : SeqRing α :=
  vs.foldl (fun r v => (SeqRing.push_inner r v).1) r

/-- Run a sequence of `poll_up_to` calls (each against the ring state
current at that call) and collect the returned stats. -/
def pollSequence (c : Consumer) : List (SeqRing α × Nat) → Consumer × List PollStats
  | [] => (c, [])
  | (r, max) :: rest =>
    let res := Consumer.poll_up_to r c max
    let tail := pollSequence res.1 rest
    (tail.1, res.2.1 :: tail.2)

/-! ## Arithmetic helper lemmas for the wrapping operations -/

theorem U32MOD_pos : 0 < U32MOD := by norm_num [U32MOD]

theorem wsub32_lt (a b : Nat) : wsub32 a b < U32MOD :=
  Nat.mod_lt _ U32MOD_pos

theorem wadd32_lt (a b : Nat) : wadd32 a b < U32MOD :=
  Nat.mod_lt _ U32MOD_pos

theorem wsub32_eq_of_le (a b : Nat) (hba : b ≤ a) (ha : a < U32MOD) :
    wsub32 a b = a - b := by
  unfold wsub32 U32MOD at *; omega

theorem wadd32_eq (a b : Nat) (h : a + b < U32MOD) : wadd32 a b = a + b := by
  unfold wadd32 U32MOD at *; omega

theorem jump_drops_eq (newest last N : Nat) (hN : 0 < N)
    (h : N < wsub32 newest last) :
    wsub32 (wsub32 newest (N - 1)) (wadd32 last 1) = wsub32 newest last - N := by
  unfold wsub32 wadd32 U32MOD at *; omega

theorem wadd32_wsub32_one (x : Nat) (hx : x < U32MOD) :
    wadd32 (wsub32 x 1) 1 = x := by
  unfold wsub32 wadd32 U32MOD at *; omega

/-! ## Step lemmas for the poll loop -/

theorem pollLoop_stop_max (r : SeqRing α) (max fuel last read dropped : Nat)
    (acc : List (Nat × α)) (h : ¬ read < max) :
    pollLoop r max fuel last read dropped acc = (last, read, dropped, acc) := by
  cases fuel <;> simp [pollLoop, h]

theorem pollLoop_stop_newest (r : SeqRing α) (max fuel read dropped : Nat)
    (acc : List (Nat × α)) :
    pollLoop r max fuel r.published_seq read dropped acc
      = (r.published_seq, read, dropped, acc) := by
  cases fuel <;> simp [pollLoop, SeqRing.newest_seq]

theorem pollLoop_jump (r : SeqRing α) (max fuel last read dropped : Nat)
    (acc : List (Nat × α)) (hmax : read < max) (hne : last ≠ r.published_seq)
    (hlag : r.N < wsub32 r.published_seq last) :
    pollLoop r max (fuel + 1) last read dropped acc
      = pollLoop r max fuel (wsub32 (wsub32 r.published_seq (r.N - 1)) 1) read
          (dropped + wsub32 (wsub32 r.published_seq (r.N - 1)) (wadd32 last 1)) acc := by
  simp [pollLoop, SeqRing.newest_seq, hmax, hne, hlag]

theorem pollLoop_deliver (r : SeqRing α) (max fuel last read dropped : Nat)
    (acc : List (Nat × α)) (v : α) (hmax : read < max)
    (hne : last ≠ r.published_seq)
    (hlag : ¬ r.N < wsub32 r.published_seq last)
    (hread : r.read_seq_inner (wadd32 last 1) = some v) :
    pollLoop r max (fuel + 1) last read dropped acc
      = pollLoop r max fuel (wadd32 last 1) (read + 1) dropped
          (acc ++ [(wadd32 last 1, v)]) := by
  simp [pollLoop, SeqRing.newest_seq, hmax, hne, hlag, hread]

theorem pollLoop_drain (r : SeqRing α) (max n : Nat)
    (hn : r.published_seq = n) (hnM : n < U32MOD) :
    ∀ (k : Nat) (fuel last read dropped : Nat) (acc : List (Nat × α)),
      last + k = n → k ≤ r.N → read + k ≤ max → k ≤ fuel →
      (∀ s, last < s → s ≤ n → (r.read_seq_inner s).isSome) →
      ∃ extra,
        pollLoop r max fuel last read dropped acc
            = (n, read + k, dropped, acc ++ extra) ∧
        extra.map Prod.fst = (List.range k).map (fun j => last + 1 + j) ∧
        ∀ p ∈ extra, r.read_seq_inner p.1 = some p.2 := by
  intro k
  induction k with
  | zero =>
    intro fuel last read dropped acc hlast _ _ _ _
    refine ⟨[], ?_, by simp, by simp⟩
    have hlast' : last = r.published_seq := by omega
    subst hlast'
    rw [pollLoop_stop_newest]
    simp [hn]
  | succ k ih =>
    intro fuel last read dropped acc hlast hkN hmax hfuel hhit
    obtain ⟨f, rfl⟩ : ∃ f, fuel = f + 1 := ⟨fuel - 1, by omega⟩
    have hne : last ≠ r.published_seq := by omega
    have hnext : wadd32 last 1 = last + 1 := wadd32_eq _ _ (by omega)
    have hlag : wsub32 r.published_seq last = k + 1 := by
      rw [hn, wsub32_eq_of_le _ _ (by omega) hnM]; omega
    have hnotlag : ¬ r.N < wsub32 r.published_seq last := by omega
    have hsome : (r.read_seq_inner (last + 1)).isSome :=
      hhit (last + 1) (by omega) (by omega)
    obtain ⟨v, hv⟩ := Option.isSome_iff_exists.mp hsome
    rw [pollLoop_deliver r max f last read dropped acc v (by omega) hne hnotlag
      (by rw [hnext]; exact hv)]
    obtain ⟨extra, heq, hfst, hmem⟩ :=
      ih f (last + 1) (read + 1) dropped (acc ++ [(wadd32 last 1, v)])
        (by omega) (by omega) (by omega) (by omega)
        (fun s hs1 hs2 => hhit s (by omega) hs2)
    refine ⟨(last + 1, v) :: extra, ?_, ?_, ?_⟩
    · rw [hnext, show read + 1 + k = read + (k + 1) by omega,
        List.append_assoc, List.singleton_append] at heq
      rw [hnext]
      exact heq
    · have hfun : ((fun j => last + 1 + j) ∘ Nat.succ) = fun j => last + 1 + 1 + j := by
        funext j
        simp only [Function.comp]
        omega
      rw [List.range_succ_eq_map, List.map_cons, List.map_cons, hfst,
        List.map_map, hfun]
    · intro p hp
      rcases List.mem_cons.mp hp with h | h
      · subst h; exact hv
      · exact hmem p h

theorem idx_for_eq (N s : Nat) (h1 : 1 ≤ s) (h2 : s < U32MOD) :
    SeqRing.idx_for N s = (s - 1) % N := by
  unfold SeqRing.idx_for
  rw [wsub32_eq_of_le _ _ h1 h2]

theorem idx_for_lt (N s : Nat) (hN : 0 < N) : SeqRing.idx_for N s < N :=
  Nat.mod_lt _ hN

theorem idx_for_ne (N s t : Nat) (hN : 0 < N) (h1 : 1 ≤ s) (hst : s < t)
    (hd : t - s < N) (h2 : t < U32MOD) :
    SeqRing.idx_for N s ≠ SeqRing.idx_for N t := by
  rw [idx_for_eq N s h1 (by omega), idx_for_eq N t (by omega) h2]
  intro h
  have hdvd : N ∣ (t - 1) - (s - 1) := (Nat.modEq_iff_dvd' (by omega)).mp h
  have hle : N ≤ (t - 1) - (s - 1) := Nat.le_of_dvd (by omega) hdvd
  omega

theorem pushAll_append (r : SeqRing α) (vs : List α) (v : α) :
    pushAll r (vs ++ [v]) = (SeqRing.push_inner (pushAll r vs) v).1 := by
  simp [pushAll, List.foldl_append]

theorem push_inner_seq (r : SeqRing α) (v : α) (h : r.next_seq + 1 < U32MOD) :
    (SeqRing.push_inner r v).2 = r.next_seq + 1 := by
  unfold SeqRing.push_inner
  simp [wadd32_eq _ _ h]

theorem pushAll_state (N : Nat) (hN : 0 < N) (vs : List α)
    (hlen : vs.length < U32MOD) :
    (pushAll (SeqRing.new α N) vs).N = N ∧
    (pushAll (SeqRing.new α N) vs).published_seq = vs.length ∧
    (pushAll (SeqRing.new α N) vs).next_seq = vs.length ∧
    (pushAll (SeqRing.new α N) vs).slot_seq.length = N ∧
    (pushAll (SeqRing.new α N) vs).slots.length = N ∧
    ∀ s, 1 ≤ s → s ≤ vs.length → vs.length < s + N →
      (pushAll (SeqRing.new α N) vs).slot_seq.getD (SeqRing.idx_for N s) 0 = s ∧
      (pushAll (SeqRing.new α N) vs).slots.getD (SeqRing.idx_for N s) none
        = vs[s - 1]? := by
  induction vs using List.reverseRecOn with
  | nil =>
    refine ⟨rfl, rfl, rfl, by simp [pushAll, SeqRing.new],
      by simp [pushAll, SeqRing.new], ?_⟩
    intro s hs1 hs2 _
    simp only [List.length_nil] at hs2
    omega
  | append_singleton vs v ih =>
    have hlen' : vs.length < U32MOD := by simp at hlen; omega
    obtain ⟨hN0, hpub, hnext, hsl, hvl, hseq⟩ := ih hlen'
    have hlen1 : vs.length + 1 < U32MOD := by simpa using hlen
    rw [pushAll_append]
    unfold SeqRing.push_inner
    simp only [hnext, wadd32_eq _ _ (by omega : vs.length + 1 < U32MOD),
      Nat.succ_ne_zero, if_false]
    refine ⟨hN0, by simp, by simp, by simpa [hN0] using hsl,
      by simpa [hN0] using hvl, ?_⟩
    intro s hs1 hs2 hs3
    simp only [List.length_append, List.length_cons, List.length_nil] at hs2 hs3
    by_cases hcase : s = vs.length + 1
    · subst hcase
      have hidx : SeqRing.idx_for N (vs.length + 1) < N := idx_for_lt N _ hN
      constructor
      · simp only [hN0]
        rw [List.getD_eq_getElem?_getD,
          List.getElem?_set_eq_of_lt _ (by rw [hsl]; exact hidx)]
        rfl
      · simp only [hN0]
        rw [List.getD_eq_getElem?_getD,
          List.getElem?_set_eq_of_lt _ (by rw [hvl]; exact hidx)]
        simp [List.getElem?_append_right (by omega : vs.length ≤ vs.length + 1 - 1)]
    · have hslt : s ≤ vs.length := by omega
      have hne : SeqRing.idx_for N s ≠ SeqRing.idx_for N (vs.length + 1) :=
        idx_for_ne N s (vs.length + 1) hN hs1 (by omega) (by omega) hlen1
      obtain ⟨htag, hval⟩ := hseq s hs1 hslt (by omega)
      constructor
      · simp only [hN0]
        rw [List.getD_eq_getElem?_getD, List.getElem?_set_ne hne.symm]
        rw [← List.getD_eq_getElem?_getD]
        exact htag
      · simp only [hN0]
        rw [List.getD_eq_getElem?_getD, List.getElem?_set_ne hne.symm]
        rw [← List.getD_eq_getElem?_getD]
        rw [List.getElem?_append_left (by omega : s - 1 < vs.length)]
        exact hval

/-! ## Claims -/

/-- C4: for every consumer state, `poll_up_to(0, hook)` never invokes the
hook (no pairs delivered), returns `read == 0`, `dropped == 0`, and
`newest` equal to the ring's current published sequence, and leaves the
consumer's cursor and drop counter unchanged. -/
theorem C4_poll_zero (α : Type) (r : SeqRing α) (c : Consumer) :
    Consumer.poll_up_to r c 0 = (c, ⟨0, 0, r.published_seq⟩, []) := by
  simp [Consumer.poll_up_to, SeqRing.newest_seq]

/-- C10: `skip_to_latest()` on an empty ring (published sequence still 0)
is a no-op: the cursor keeps its current value (it is not set to the
wrapped value `0 - 1`), a subsequent poll of any `max` delivers nothing,
and the drop counter is unchanged. -/
theorem C10_skip_empty (α : Type) (r : SeqRing α) (c : Consumer) (max : Nat)
    (h : r.published_seq = 0) :
    Consumer.skip_to_latest r c = c ∧
    Consumer.poll_up_to r (Consumer.skip_to_latest r c) max
      = (c, ⟨0, 0, 0⟩, []) := by
  have hskip : Consumer.skip_to_latest r c = c := by
    simp [Consumer.skip_to_latest, SeqRing.newest_seq, h]
  refine ⟨hskip, ?_⟩
  rw [hskip]
  rcases Nat.eq_zero_or_pos max with hm | hm
  · subst hm
    simp [Consumer.poll_up_to, SeqRing.newest_seq, h]
  · simp [Consumer.poll_up_to, SeqRing.newest_seq, h, Nat.pos_iff_ne_zero.mp hm]

/-- C10 witness: concrete instance on a fresh ring of capacity 4. -/
theorem C10_skip_empty_witness :
    Consumer.skip_to_latest (SeqRing.new Nat 4) ⟨0, 5⟩ = ⟨0, 5⟩ ∧
    Consumer.poll_up_to (SeqRing.new Nat 4)
        (Consumer.skip_to_latest (SeqRing.new Nat 4) ⟨0, 5⟩) 3
      = (⟨0, 5⟩, ⟨0, 0, 0⟩, []) :=
  C10_skip_empty Nat (SeqRing.new Nat 4) ⟨0, 5⟩ 3 rfl

/-- C5: acquiring a second producer (or consumer) handle while one is live
fails deterministically (the `assert!` fires, modelled by the `false`
result) and leaves the entire ring state unchanged, exclusivity flag
included (the failed `swap(true)` wrote `true` over `true`); after the
live handle is released (its `Drop` clears the flag), a subsequent
acquisition of the same role succeeds. -/
theorem C5_handle_exclusivity (α : Type) (r : SeqRing α) :
    (r.producer_taken = true →
      (SeqRing.producer r).1 = false ∧ (SeqRing.producer r).2 = r) ∧
    (SeqRing.producer (SeqRing.release_producer (SeqRing.producer r).2)).1
      = true ∧
    (r.consumer_taken = true →
      (SeqRing.consumer r).1 = false ∧ (SeqRing.consumer r).2.1 = r) ∧
    (SeqRing.consumer (SeqRing.release_consumer (SeqRing.consumer r).2.1)).1
      = true := by
  refine ⟨fun h => ⟨by simp [SeqRing.producer, h], ?_⟩, ?_, fun h =>
    ⟨by simp [SeqRing.consumer, h], ?_⟩, ?_⟩
  · simp only [SeqRing.producer]
    cases r
    simp_all
  · simp [SeqRing.producer, SeqRing.release_producer]
  · simp only [SeqRing.consumer]
    cases r
    simp_all
  · simp [SeqRing.consumer, SeqRing.release_consumer]

/-- C5 witness: concrete ring with both handles live; the second
acquisition of each role fails and leaves the ring unchanged, and
acquisition succeeds again after release. -/
theorem C5_handle_exclusivity_witness :
    (SeqRing.producer
        { SeqRing.new Nat 2 with producer_taken := true }).1 = false ∧
    (SeqRing.producer
        { SeqRing.new Nat 2 with producer_taken := true }).2
      = { SeqRing.new Nat 2 with producer_taken := true } ∧
    (SeqRing.consumer
        { SeqRing.new Nat 2 with consumer_taken := true }).1 = false := by
  refine ⟨(C5_handle_exclusivity Nat _).1 rfl |>.1,
    (C5_handle_exclusivity Nat _).1 rfl |>.2,
    ((C5_handle_exclusivity Nat _).2.2.1 rfl).1⟩

/-- C3: a push never returns sequence number 0: the assigned sequence is
the incremented `next_seq` counter, except that when the increment wraps
to 0 the assigned sequence is 1; in both cases the shared counter is left
equal to the assigned sequence, so subsequent pushes continue from there;
in particular, from `next_seq = u32::MAX` the push returns sequence 1. -/
theorem C3_seq_never_zero (α : Type) (r : SeqRing α) (v : α) :
    (SeqRing.push_inner r v).2 ≠ 0 ∧
    (SeqRing.push_inner r v).1.next_seq = (SeqRing.push_inner r v).2 ∧
    (SeqRing.push_inner r v).2
      = (if wadd32 r.next_seq 1 = 0 then 1 else wadd32 r.next_seq 1) ∧
    (r.next_seq = U32MOD - 1 →
      (SeqRing.push_inner r v).2 = 1 ∧
      (SeqRing.push_inner r v).1.next_seq = 1) := by
  refine ⟨?_, rfl, rfl, fun h => ?_⟩
  · unfold SeqRing.push_inner
    dsimp only
    split
    · exact one_ne_zero
    · assumption
  · have hc : wadd32 r.next_seq 1 = 0 := by
      rw [h]
      unfold wadd32 U32MOD
      omega
    unfold SeqRing.push_inner
    simp [hc]

/-- C3 witness: with `next_seq` forced to `u32::MAX` the next push returns
sequence 1 and leaves `next_seq = 1`; and a push on a fresh ring returns a
nonzero sequence. -/
theorem C3_seq_never_zero_witness :
    (SeqRing.push_inner
        { SeqRing.new Nat 4 with next_seq := U32MOD - 1 } 7).2 = 1 ∧
    (SeqRing.push_inner
        { SeqRing.new Nat 4 with next_seq := U32MOD - 1 } 7).1.next_seq = 1 ∧
    (SeqRing.push_inner (SeqRing.new Nat 4) 7).2 ≠ 0 := by
  refine ⟨((C3_seq_never_zero Nat _ 7).2.2.2 rfl).1,
    ((C3_seq_never_zero Nat _ 7).2.2.2 rfl).2,
    (C3_seq_never_zero Nat (SeqRing.new Nat 4) 7).1⟩

/-- C9: the slot index for sequence `s` (with `1 ≤ s < 2^32`, the range of
assigned sequence numbers) is `(s - 1) mod N`; it is always within
`[0, N)`, so slot accesses are in bounds; and two sequence numbers map to
the same slot iff they differ by a multiple of `N`. -/
theorem C9_slot_index (N s t : Nat) (hN : 0 < N)
    (hs1 : 1 ≤ s) (hs2 : s < U32MOD) (ht1 : 1 ≤ t) (ht2 : t < U32MOD) :
    SeqRing.idx_for N s = (s - 1) % N ∧
    SeqRing.idx_for N s < N ∧
    (t ≤ s → (SeqRing.idx_for N s = SeqRing.idx_for N t ↔ N ∣ (s - t))) := by
  refine ⟨idx_for_eq N s hs1 hs2, idx_for_lt N s hN, fun hts => ?_⟩
  rw [idx_for_eq N s hs1 hs2, idx_for_eq N t ht1 ht2]
  constructor
  · intro h
    have hdvd : N ∣ (s - 1) - (t - 1) := (Nat.modEq_iff_dvd' (by omega)).mp h.symm
    have : s - 1 - (t - 1) = s - t := by omega
    rwa [this] at hdvd
  · intro h
    have h' : N ∣ (s - 1) - (t - 1) := by
      have : s - 1 - (t - 1) = s - t := by omega
      rwa [this]
    exact ((Nat.modEq_iff_dvd' (by omega)).mpr h').symm

/-- C9 witness: capacity 4, sequences 9 and 5 share a slot (they differ by
4); the index of 9 is `(9 - 1) mod 4 = 0 < 4`. -/
theorem C9_slot_index_witness :
    SeqRing.idx_for 4 9 = (9 - 1) % 4 ∧
    SeqRing.idx_for 4 9 < 4 ∧
    (SeqRing.idx_for 4 9 = SeqRing.idx_for 4 5 ↔ 4 ∣ (9 - 5)) := by
  have h := C9_slot_index 4 9 5 (by norm_num) (by norm_num)
    (by norm_num [U32MOD]) (by norm_num) (by norm_num [U32MOD])
  exact ⟨h.1, h.2.1, h.2.2 (by norm_num)⟩

theorem push_inner_seq_ne_zero (r : SeqRing α) (v : α) :
    (SeqRing.push_inner r v).2 ≠ 0 := by
  unfold SeqRing.push_inner
  dsimp only
  split
  · exact one_ne_zero
  · assumption

theorem read_seq_inner_push (r : SeqRing α) (v : α)
    (hsl : r.slot_seq.length = r.N) (hvl : r.slots.length = r.N)
    (hN : 0 < r.N) :
    SeqRing.read_seq_inner (SeqRing.push_inner r v).1
        (SeqRing.push_inner r v).2 = some v := by
  unfold SeqRing.read_seq_inner SeqRing.push_inner
  dsimp only
  simp only [List.getD_eq_getElem?_getD]
  rw [List.getElem?_set_eq_of_lt _ (by rw [hsl]; exact idx_for_lt _ _ hN),
    List.getElem?_set_eq_of_lt _ (by rw [hvl]; exact idx_for_lt _ _ hN)]
  simp

/-- C7: `latest()` on an empty ring (no push yet, published sequence 0)
returns no item, never invoking the hook; after any push, `latest()`
delivers the just-pushed value with its sequence number; and `latest()`
leaves the consumer (cursor and drop counter) unchanged, so a subsequent
in-order `poll_one` is unaffected. -/
theorem C7_latest (α : Type) (r : SeqRing α) (c : Consumer) (v : α) :
    (r.published_seq = 0 → Consumer.latest r c = (c, none)) ∧
    (Consumer.latest r c).1 = c ∧
    Consumer.poll_one r (Consumer.latest r c).1 = Consumer.poll_one r c ∧
    (r.slot_seq.length = r.N → r.slots.length = r.N → 0 < r.N →
      Consumer.latest (SeqRing.push_inner r v).1 c
        = (c, some ((SeqRing.push_inner r v).2, v))) := by
  have hfst : (Consumer.latest r c).1 = c := by
    unfold Consumer.latest
    dsimp only
    split
    · rfl
    · split <;> rfl
  refine ⟨fun h => by simp [Consumer.latest, SeqRing.newest_seq, h], hfst,
    by rw [hfst], ?_⟩
  intro hsl hvl hN
  have hread := read_seq_inner_push r v hsl hvl hN
  have hne := push_inner_seq_ne_zero r v
  have hpub : ((SeqRing.push_inner r v).1).newest_seq
      = (SeqRing.push_inner r v).2 := rfl
  unfold Consumer.latest
  rw [hpub]
  simp [hne, hread]

/-- C7 witness: concrete instances of the three hypotheses-bearing parts
on a fresh ring of capacity 3. -/
theorem C7_latest_witness :
    Consumer.latest (SeqRing.new Nat 3) ⟨0, 0⟩ = (⟨0, 0⟩, none) ∧
    Consumer.latest (SeqRing.push_inner (SeqRing.new Nat 3) 42).1 ⟨0, 0⟩
      = (⟨0, 0⟩, some ((SeqRing.push_inner (SeqRing.new Nat 3) 42).2, 42)) := by
  refine ⟨(C7_latest Nat (SeqRing.new Nat 3) ⟨0, 0⟩ 42).1 rfl,
    (C7_latest Nat (SeqRing.new Nat 3) ⟨0, 0⟩ 42).2.2.2 rfl rfl (by decide)⟩

theorem poll_up_to_accum (r : SeqRing α) (c : Consumer) (max : Nat) :
    (Consumer.poll_up_to r c max).1.dropped_accum
      = c.dropped_accum + (Consumer.poll_up_to r c max).2.1.dropped := by
  unfold Consumer.poll_up_to
  dsimp only
  split
  · simp
  · split
    · simp
    · rfl

theorem pollSequence_accum (steps : List (SeqRing α × Nat)) :
    ∀ c : Consumer,
      (pollSequence c steps).1.dropped_accum
        = c.dropped_accum + ((pollSequence c steps).2.map PollStats.dropped).sum := by
  induction steps with
  | nil => intro c; simp [pollSequence]
  | cons hd tl ih =>
    intro c
    obtain ⟨r, max⟩ := hd
    simp only [pollSequence]
    rw [ih, poll_up_to_accum]
    simp only [List.map_cons, List.sum_cons]
    omega

/-- C8: over any sequence of poll calls, `dropped()` equals the value at
the start of the sequence plus the sum of the `dropped` fields returned by
those calls — so from creation (`dropped_accum = 0`) or from the most
recent `reset_dropped()` it is exactly the running sum; `reset_dropped()`
zeroes the counter without touching the cursor; and `poll_one` updates the
consumer exactly as `poll_up_to(1, …)` does. -/
theorem C8_dropped_running_sum (α : Type) (steps : List (SeqRing α × Nat))
    (c : Consumer) (r : SeqRing α) :
    Consumer.dropped (pollSequence c steps).1
      = Consumer.dropped c
        + ((pollSequence c steps).2.map PollStats.dropped).sum ∧
    Consumer.dropped (pollSequence (Consumer.reset_dropped c) steps).1
      = ((pollSequence (Consumer.reset_dropped c) steps).2.map
          PollStats.dropped).sum ∧
    (Consumer.reset_dropped c).dropped_accum = 0 ∧
    (Consumer.reset_dropped c).last_seq = c.last_seq ∧
    (Consumer.poll_one r c).1 = (Consumer.poll_up_to r c 1).1 := by
  refine ⟨pollSequence_accum steps c, ?_, rfl, rfl, rfl⟩
  have h := pollSequence_accum steps (Consumer.reset_dropped c)
  simpa [Consumer.dropped, Consumer.reset_dropped] using h

/-- C2: whenever the lag `newest - cursor` (unsigned wraparound
subtraction) exceeds the capacity `N`, the poll loop jumps the cursor so
that the next unread sequence is `newest - (N - 1)` (i.e. `last_seq`
becomes `newest - (N - 1) - 1`), adds exactly `lag - N` to this call's
drop count, and delivers nothing in that iteration; and in the concrete
scenario of capacity 4 with 10 pushes of values `0..10` followed by
`poll_up_to(10, hook)`, the result is `read = 4`, `dropped = 6`,
`newest = 10` with delivered pairs `(7,6), (8,7), (9,8), (10,9)`. -/
theorem C2_lag_jump (α : Type) (r : SeqRing α)
    (max fuel last read dropped : Nat) (acc : List (Nat × α))
    (hN : 0 < r.N) (hmax : read < max) (hne : last ≠ r.published_seq)
    (hlag : r.N < wsub32 r.published_seq last) :
    (pollLoop r max (fuel + 1) last read dropped acc
        = pollLoop r max fuel (wsub32 (wsub32 r.published_seq (r.N - 1)) 1)
            read (dropped + (wsub32 r.published_seq last - r.N)) acc ∧
      wadd32 (wsub32 (wsub32 r.published_seq (r.N - 1)) 1) 1
        = wsub32 r.published_seq (r.N - 1)) ∧
    Consumer.poll_up_to (pushAll (SeqRing.new Nat 4) (List.range 10)) ⟨0, 0⟩ 10
      = (⟨10, 6⟩, ⟨4, 6, 10⟩, [(7, 6), (8, 7), (9, 8), (10, 9)]) := by
  refine ⟨⟨?_, wadd32_wsub32_one _ (wsub32_lt _ _)⟩, by decide⟩
  rw [pollLoop_jump r max fuel last read dropped acc hmax hne hlag,
    jump_drops_eq _ _ _ hN hlag]

/-- C2 witness: the jump iteration on the concrete lagged ring (capacity
4, 10 pushes, cursor 0): one loop step moves the cursor to 6 and accounts
6 drops without delivering. -/
theorem C2_lag_jump_witness :
    pollLoop (pushAll (SeqRing.new Nat 4) (List.range 10)) 10 6 0 0 0 []
      = pollLoop (pushAll (SeqRing.new Nat 4) (List.range 10)) 10 5 6 0 6 [] :=
  (C2_lag_jump Nat (pushAll (SeqRing.new Nat 4) (List.range 10)) 10 5 0 0 0 []
    (by decide) (by decide) (by decide) (by decide)).1.1

theorem read_seq_inner_of_tag (r : SeqRing α) (s : Nat)
    (h : r.slot_seq.getD (SeqRing.idx_for r.N s) 0 = s) :
    r.read_seq_inner s = r.slots.getD (SeqRing.idx_for r.N s) none := by
  unfold SeqRing.read_seq_inner
  dsimp only
  rw [h]
  simp

/-- C6: in the sequential setting, `skip_to_latest()` followed by
`poll_one()` delivers exactly the single newest item at the time of the
skip (sequence `n` with the last pushed value, after `n ≥ 1` pushes of a
fresh ring, for every backlog size `n < 2^32` and every prior consumer
state), and the skip does not change the consumer's drop counter. -/
theorem C6_skip_then_poll (α : Type) (N : Nat) (vs : List α) (c : Consumer)
    (hN : 0 < N) (hvs : vs ≠ []) (hlen : vs.length < U32MOD) :
    (Consumer.skip_to_latest (pushAll (SeqRing.new α N) vs) c).dropped_accum
      = c.dropped_accum ∧
    Consumer.poll_one (pushAll (SeqRing.new α N) vs)
        (Consumer.skip_to_latest (pushAll (SeqRing.new α N) vs) c)
      = (⟨vs.length, c.dropped_accum⟩, true,
          [(vs.length, vs.getLast hvs)]) := by
  obtain ⟨hN0, hpub, hnext, hsl, hvl, hseq⟩ := pushAll_state N hN vs hlen
  set r := pushAll (SeqRing.new α N) vs with hr
  set n := vs.length with hn
  have hn1 : 1 ≤ n := List.length_pos.mpr hvs
  have hnewest : r.newest_seq = n := hpub
  have hskip : Consumer.skip_to_latest r c = ⟨n - 1, c.dropped_accum⟩ := by
    unfold Consumer.skip_to_latest
    rw [hnewest, if_pos (by omega), wsub32_eq_of_le n 1 hn1 hlen]
  have hlast : vs[n - 1]? = some (vs.getLast hvs) := by
    rw [← List.getLast?_eq_getElem? vs, List.getLast?_eq_getLast vs hvs]
  have hread : r.read_seq_inner n = some (vs.getLast hvs) := by
    rw [read_seq_inner_of_tag r n (by rw [hN0]; exact (hseq n hn1 le_rfl (by omega)).1)]
    rw [hN0]
    rw [(hseq n hn1 le_rfl (by omega)).2]
    exact hlast
  have hadd : wadd32 (n - 1) 1 = n := by
    rw [wadd32_eq _ _ (by omega)]
    omega
  have hres : pollLoop r 1 U32MOD (n - 1) 0 0 ([] : List (Nat × α))
      = (n, 1, 0, [(n, vs.getLast hvs)]) := by
    rw [show U32MOD = (U32MOD - 1) + 1 from by norm_num [U32MOD]]
    rw [pollLoop_deliver r 1 (U32MOD - 1) (n - 1) 0 0 [] (vs.getLast hvs)
      one_pos (by omega) (by rw [hpub, wsub32_eq_of_le n (n - 1) (by omega) hlen]; omega)
      (by rw [hadd]; exact hread)]
    rw [pollLoop_stop_max _ _ _ _ _ _ _ (by omega)]
    rw [hadd]
    rfl
  refine ⟨by rw [hskip], ?_⟩
  rw [hskip]
  unfold Consumer.poll_one Consumer.poll_up_to
  rw [hnewest]
  dsimp only
  rw [if_neg one_ne_zero,
    if_neg (show ¬ (n = 0 ∨ n = (⟨n - 1, c.dropped_accum⟩ : Consumer).last_seq)
      from by show ¬ (n = 0 ∨ n = n - 1); omega), hres]
  rfl

/-- C6 witness: capacity 2, pushes `[5, 7, 9]`, prior consumer state
`⟨0, 3⟩`: the skip keeps the drop counter at 3 and the following
`poll_one` delivers exactly `(3, 9)`. -/
theorem C6_skip_then_poll_witness :
    (Consumer.skip_to_latest (pushAll (SeqRing.new Nat 2) [5, 7, 9])
        ⟨0, 3⟩).dropped_accum = 3 ∧
    Consumer.poll_one (pushAll (SeqRing.new Nat 2) [5, 7, 9])
        (Consumer.skip_to_latest (pushAll (SeqRing.new Nat 2) [5, 7, 9]) ⟨0, 3⟩)
      = (⟨3, 3⟩, true, [(3, 9)]) := by
  have h := C6_skip_then_poll Nat 2 [5, 7, 9] ⟨0, 3⟩ (by decide) (by decide)
    (by norm_num [U32MOD])
  exact ⟨h.1, h.2⟩

theorem poll_up_to_eq (r : SeqRing α) (c : Consumer) (max : Nat)
    (hmax : max ≠ 0) (h0 : r.published_seq ≠ 0)
    (hc : r.published_seq ≠ c.last_seq) :
    Consumer.poll_up_to r c max
      = ({ last_seq := (pollLoop r max U32MOD c.last_seq 0 0 []).1,
           dropped_accum := c.dropped_accum
             + (pollLoop r max U32MOD c.last_seq 0 0 []).2.2.1 },
         ⟨(pollLoop r max U32MOD c.last_seq 0 0 []).2.1,
          (pollLoop r max U32MOD c.last_seq 0 0 []).2.2.1,
          r.published_seq⟩,
         (pollLoop r max U32MOD c.last_seq 0 0 []).2.2.2) := by
  unfold Consumer.poll_up_to
  rw [if_neg hmax, if_neg (show ¬(r.newest_seq = 0 ∨ r.newest_seq = c.last_seq)
    from by push_neg; exact ⟨h0, hc⟩)]
  rfl

theorem jump_cursor_value (n N : Nat) (hN : 0 < N) (hNn : N < n)
    (hn : n < U32MOD) :
    wsub32 (wsub32 n (N - 1)) 1 = n - N := by
  obtain ⟨k, rfl⟩ : ∃ k, N = k + 1 := ⟨N - 1, by omega⟩
  simp only [Nat.add_sub_cancel]
  rw [wsub32_eq_of_le n k (by omega) hn,
    wsub32_eq_of_le (n - k) 1 (by omega)
      (lt_of_le_of_lt (Nat.sub_le n k) hn)]
  omega

theorem jump_drops_value (n N : Nat) (hN : 0 < N) (hNn : N < n)
    (hn : n < U32MOD) :
    wsub32 (wsub32 n (N - 1)) (wadd32 0 1) = n - N := by
  obtain ⟨k, rfl⟩ : ∃ k, N = k + 1 := ⟨N - 1, by omega⟩
  simp only [Nat.add_sub_cancel]
  rw [wadd32_eq 0 1 (by norm_num [U32MOD]),
    wsub32_eq_of_le n k (by omega) hn,
    wsub32_eq_of_le (n - k) 1 (by omega)
      (lt_of_le_of_lt (Nat.sub_le n k) hn)]
  omega

theorem pairwise_fst_of_range (extra : List (Nat × α)) (k c : Nat)
    (hfst : extra.map Prod.fst = (List.range k).map (fun j => c + 1 + j)) :
    List.Pairwise (fun p q : Nat × α => p.1 < q.1) extra := by
  have h : (extra.map Prod.fst).Pairwise (· < ·) := by
    rw [hfst]
    exact List.pairwise_map.mpr
      ((List.pairwise_lt_range k).imp (fun hab => by omega))
  exact List.pairwise_map.mp h

/-- C1 (amended: `1 ≤ n < 2^32`; for `n ≥ 2^32` the 32-bit sequence
counter wraps and `newest` can no longer equal `n`): for every fresh ring
of capacity `N > 0` and `1 ≤ n < 2^32`, `n` pushes with no interleaved
polling followed by `poll_up_to(n, hook)` deliver exactly `min(n, N)`
items, in strictly increasing sequence order (sequences
`n - min(n,N) + 1, …, n`), with `dropped = n - min(n, N)` and
`newest = n`. -/
theorem C1_fresh_ring_drain (α : Type) (N : Nat) (vs : List α)
    (hN : 0 < N) (h1 : 1 ≤ vs.length) (h2 : vs.length < U32MOD) :
    (Consumer.poll_up_to (pushAll (SeqRing.new α N) vs) ⟨0, 0⟩ vs.length).2.1
      = ⟨min vs.length N, vs.length - min vs.length N, vs.length⟩ ∧
    ((Consumer.poll_up_to (pushAll (SeqRing.new α N) vs)
        ⟨0, 0⟩ vs.length).2.2).length = min vs.length N ∧
    ((Consumer.poll_up_to (pushAll (SeqRing.new α N) vs)
        ⟨0, 0⟩ vs.length).2.2).map Prod.fst
      = (List.range (min vs.length N)).map
          (fun j => vs.length - min vs.length N + 1 + j) ∧
    List.Pairwise (fun p q : Nat × α => p.1 < q.1)
      (Consumer.poll_up_to (pushAll (SeqRing.new α N) vs)
        ⟨0, 0⟩ vs.length).2.2 := by
  obtain ⟨hN0, hpub, hnext, hsl, hvl, hseq⟩ := pushAll_state N hN vs h2
  set r := pushAll (SeqRing.new α N) vs with hr
  set n := vs.length with hn
  have hhit : ∀ s, n - min n N < s → s ≤ n → (r.read_seq_inner s).isSome := by
    intro s hs1 hs2
    obtain ⟨htag, hval⟩ := hseq s (by omega) hs2 (by omega)
    rw [read_seq_inner_of_tag r s (by rw [hN0]; exact htag), hN0, hval]
    simp [List.getElem?_eq_getElem (show s - 1 < vs.length by omega)]
  have key : ∃ extra,
      pollLoop r n U32MOD 0 0 0 ([] : List (Nat × α))
        = (n, min n N, n - min n N, extra) ∧
      extra.map Prod.fst
        = (List.range (min n N)).map (fun j => n - min n N + 1 + j) := by
    rcases le_or_lt n N with hcase | hcase
    · have hmin : min n N = n := Nat.min_eq_left hcase
      obtain ⟨extra, heq, hfst, hmem⟩ :=
        pollLoop_drain r n n hpub h2 n U32MOD 0 0 0 []
          (Nat.zero_add n) (by rw [hN0]; exact hcase) (by omega) (by omega)
          (fun s hs1 hs2 => hhit s (by omega) hs2)
      refine ⟨extra, ?_, ?_⟩
      · rw [heq, hmin]
        simp
      · rw [hfst, hmin]
        have hz : n - n = 0 := Nat.sub_self n
        rw [hz]
    · have hmin : min n N = N := Nat.min_eq_right hcase.le
      have hjump : pollLoop r n U32MOD 0 0 0 ([] : List (Nat × α))
          = pollLoop r n (U32MOD - 1) (n - N) 0 (n - N) [] := by
        conv_lhs => rw [show U32MOD = (U32MOD - 1) + 1 from by norm_num [U32MOD]]
        rw [pollLoop_jump r n (U32MOD - 1) 0 0 0 [] (by omega)
          (by omega) (by rw [hpub, wsub32_eq_of_le n 0 (Nat.zero_le n) h2, hN0, Nat.sub_zero]; exact hcase)]
        rw [hpub, hN0, jump_cursor_value n N hN hcase h2,
          jump_drops_value n N hN hcase h2, Nat.zero_add]
      obtain ⟨extra, heq, hfst, hmem⟩ :=
        pollLoop_drain r n n hpub h2 N (U32MOD - 1) (n - N) 0 (n - N) []
          (by omega) (by rw [hN0]) (by omega) (by omega)
          (fun s hs1 hs2 => hhit s (by omega) hs2)
      refine ⟨extra, ?_, ?_⟩
      · rw [hjump, heq, hmin]
        simp
      · rw [hfst, hmin]
  obtain ⟨extra, hloop, hfst⟩ := key
  have hassemble := poll_up_to_eq r ⟨0, 0⟩ n (by omega)
    (by rw [hpub]; omega) (by rw [hpub]; show n ≠ 0; omega)
  rw [show (⟨0, 0⟩ : Consumer).last_seq = 0 from rfl] at hassemble
  rw [hassemble, hloop, hpub]
  refine ⟨rfl, ?_, hfst, pairwise_fst_of_range extra (min n N) (n - min n N) hfst⟩
  have := congrArg List.length hfst
  simpa using this

/-- C1 witness: capacity 3, five pushes, `poll_up_to(5)`: reads 3, drops
2, newest 5; delivered sequences `[3, 4, 5]`, strictly increasing. -/
theorem C1_fresh_ring_drain_witness :
    (Consumer.poll_up_to (pushAll (SeqRing.new Nat 3) [10, 11, 12, 13, 14])
        ⟨0, 0⟩ 5).2.1 = ⟨3, 2, 5⟩ ∧
    ((Consumer.poll_up_to (pushAll (SeqRing.new Nat 3) [10, 11, 12, 13, 14])
        ⟨0, 0⟩ 5).2.2).map Prod.fst = [3, 4, 5] ∧
    List.Pairwise (fun p q : Nat × Nat => p.1 < q.1)
      (Consumer.poll_up_to (pushAll (SeqRing.new Nat 3) [10, 11, 12, 13, 14])
        ⟨0, 0⟩ 5).2.2 := by
  have h := C1_fresh_ring_drain Nat 3 [10, 11, 12, 13, 14] (by decide)
    (by decide) (by norm_num [U32MOD])
  exact ⟨h.1, h.2.2.1, h.2.2.2⟩

theorem poll_up_to_newest (r : SeqRing α) (c : Consumer) (max : Nat) :
    (Consumer.poll_up_to r c max).2.1.newest = r.published_seq := by
  unfold Consumer.poll_up_to
  dsimp only
  split
  · rfl
  · split
    · rfl
    · rfl

theorem pushAll_wrap_published :
    (pushAll (SeqRing.new Nat 4) (List.replicate U32MOD 0)).published_seq
      = 1 := by
  have hrepl : List.replicate U32MOD (0 : Nat)
      = List.replicate (U32MOD - 1) 0 ++ [0] := by
    conv_lhs => rw [show U32MOD = (U32MOD - 1) + 1 from by norm_num [U32MOD]]
    rw [List.replicate_succ']
  rw [hrepl, pushAll_append]
  have hnext : (pushAll (SeqRing.new Nat 4)
      (List.replicate (U32MOD - 1) (0 : Nat))).next_seq = U32MOD - 1 := by
    have h := pushAll_state 4 (by norm_num) (List.replicate (U32MOD - 1) (0 : Nat))
      (by rw [List.length_replicate]; norm_num [U32MOD])
    rw [h.2.2.1, List.length_replicate]
  unfold SeqRing.push_inner
  dsimp only
  rw [hnext, if_pos (show wadd32 (U32MOD - 1) 1 = 0 from by
    unfold wadd32 U32MOD; norm_num)]

/-- C1 counterexample: with `n = 2^32` pushes into a fresh ring of
capacity 4 and then `poll_up_to(n, hook)`, the returned `newest` is 1 (the
32-bit sequence counter has wrapped, skipping the reserved 0), not `n` as
the claim requires for every `n ≥ 1`. -/
theorem C1_fresh_ring_drain_cex :
    (Consumer.poll_up_to (pushAll (SeqRing.new Nat 4) (List.replicate U32MOD 0))
        ⟨0, 0⟩ U32MOD).2.1.newest = 1 ∧ (1 : Nat) ≠ U32MOD := by
  refine ⟨?_, by norm_num [U32MOD]⟩
  rw [poll_up_to_newest, pushAll_wrap_published]
